import Mathlib

/-!
Verification of the Mafia game engine (`mafia_core.py`, `main.py`, `memory.py`).

The Python source is shallowly embedded: Python dicts become association
lists in insertion order, `random.choice` / `random.shuffle` become explicit
parameters (an index, chooser function, or permutation, universally
quantified in the theorems), and machine-level details that the engine never
relies on (hashing, float arithmetic) do not appear.
-/

namespace Mafia

/-- Player role; the source stores the strings `"MAFIA"` / `"CITIZEN"`. -/
inductive Role where
  | MAFIA
  | CITIZEN
deriving DecidableEq, Repr

/-- Game phase (`Phase` enum in `mafia_core.py`). -/
inductive Phase where
  | NIGHT
  | DAY_DISCUSS
  | DAY_VOTE
  | END
deriving DecidableEq, Repr

/-- `Player` dataclass. -/
structure Player where
  name : String
  role : Role
  alive : Bool := true
deriving DecidableEq, Repr

/-- `GameState` dataclass.  `players` is the `Dict[str, Player]` in insertion
order (keys are the player names); `last_line_by_name` likewise. -/
structure GameState where
  round : Nat := 1
  phase : Phase := Phase.NIGHT
  players : List Player := []
  log : List String := []
  dialogue_history : List String := []
  last_line_by_name : List (String × String) := []
  dialogue_round_start_idx : Nat := 0
deriving DecidableEq, Repr

/-- `GameState.alive_players`. -/
def GameState.alive_players (gs : GameState) : List String :=
  (gs.players.filter (fun p => p.alive)).map (fun p => p.name)

/-- `GameState.alive_ai`: living players except the human `"당신"`. -/
def GameState.alive_ai (gs : GameState) : List String :=
  gs.alive_players.filter (fun n => n ≠ "당신")

/-- `GameState.mafia_alive`. -/
def GameState.mafia_alive (gs : GameState) : Nat :=
  (gs.players.filter (fun p => p.alive && p.role == Role.MAFIA)).length

/-- `GameState.citizen_alive`. -/
def GameState.citizen_alive (gs : GameState) : Nat :=
  (gs.players.filter (fun p => p.alive && p.role == Role.CITIZEN)).length

/-- `check_win`: mafia extinct → citizens win; mafia ≥ citizens → mafia win. -/
def check_win (gs : GameState) : Option String :=
  if gs.mafia_alive = 0 then some "CITIZEN_WIN"
  else if gs.mafia_alive ≥ gs.citizen_alive then some "MAFIA_WIN"
  else none

/-- Every living player is counted as exactly one of mafia / citizen, because
the role type has only those two values. -/
theorem alive_count_split (gs : GameState) :
    gs.alive_players.length = gs.mafia_alive + gs.citizen_alive := by
  unfold GameState.alive_players GameState.mafia_alive GameState.citizen_alive
  induction gs.players with
  | nil => simp
  | cons p ps ih =>
    rcases hp : p.alive <;> rcases hr : p.role <;>
      simp [List.filter_cons, hp, hr, ih] <;> omega

/-- The all-dead seven-player roster with a single (dead) mafia. -/
def deadState : GameState :=
  { players :=
      [⟨"당신", Role.CITIZEN, false⟩, ⟨"민수", Role.CITIZEN, false⟩,
       ⟨"지연", Role.CITIZEN, false⟩, ⟨"현우", Role.CITIZEN, false⟩,
       ⟨"수아", Role.CITIZEN, false⟩, ⟨"하린", Role.CITIZEN, false⟩,
       ⟨"태훈", Role.MAFIA, false⟩] }

/-- A live seven-player roster (mafia 태훈 alive). -/
def liveState : GameState :=
  { players :=
      [⟨"당신", Role.CITIZEN, true⟩, ⟨"민수", Role.CITIZEN, true⟩,
       ⟨"지연", Role.CITIZEN, true⟩, ⟨"현우", Role.CITIZEN, true⟩,
       ⟨"수아", Role.CITIZEN, true⟩, ⟨"하린", Role.CITIZEN, true⟩,
       ⟨"태훈", Role.MAFIA, true⟩] }

/-- C1, counterexample: on the all-dead single-mafia roster the living mafia
count (0) is ≥ the living citizen count (0), yet `check_win` answers
`CITIZEN_WIN`, not `MAFIA_WIN`; so "MAFIA_WIN iff mafia ≥ citizens" fails and
the two winning conditions are not mutually exclusive there. -/
theorem check_win_claim_counterexample :
    (deadState.players.filter (fun p => p.role == Role.MAFIA)).length = 1 ∧
    deadState.mafia_alive ≥ deadState.citizen_alive ∧
    deadState.mafia_alive = 0 ∧
    check_win deadState ≠ some "MAFIA_WIN" := by decide

/-- C1 (amended): `check_win` returns `CITIZEN_WIN` iff the living mafia
count is 0, returns `MAFIA_WIN` iff the living mafia count is nonzero and ≥
the living citizen count, and the two winning conditions are mutually
exclusive whenever at least one player is alive. -/
theorem check_win_characterization (gs : GameState) :
    (check_win gs = some "CITIZEN_WIN" ↔ gs.mafia_alive = 0) ∧
    (check_win gs = some "MAFIA_WIN" ↔
      (gs.mafia_alive ≠ 0 ∧ gs.mafia_alive ≥ gs.citizen_alive)) ∧
    (gs.alive_players ≠ [] →
      ¬(gs.mafia_alive = 0 ∧ gs.mafia_alive ≥ gs.citizen_alive)) := by
  refine ⟨?_, ?_, ?_⟩
  · unfold check_win
    split_ifs with h1 h2
    · simp [h1]
    · simp [h1]
    · simp [h1]
  · unfold check_win
    split_ifs with h1 h2
    · simp [h1]
    · simp [h1, h2]
    · simp only [reduceCtorEq, false_iff]
      omega
  · intro hne hcontra
    have hsplit := alive_count_split gs
    have hlen : gs.alive_players.length ≠ 0 := by
      simpa [List.length_eq_zero] using hne
    omega

/-- C1 witness: the amended characterization applied to the live roster. -/
theorem check_win_characterization_witness :
    ¬(liveState.mafia_alive = 0 ∧ liveState.mafia_alive ≥ liveState.citizen_alive) :=
  (check_win_characterization liveState).2.2 (by decide)

/-! ## Vote tally (`tally_votes_plurality`) -/

/-- Code-point lexicographic order on character lists: the order Python uses
to compare strings in `sorted`. -/
def lexLe : List Char → List Char → Bool
  | [], _ => true
  | _ :: _, [] => false
  | a :: as, b :: bs => a.toNat < b.toNat || (a.toNat == b.toNat && lexLe as bs)

/-- Python string `<=` (code-point lexicographic). -/
def pyLe (a b : String) : Prop := lexLe a.data b.data = true

instance : DecidableRel pyLe := fun a b => by unfold pyLe; infer_instance

/-- First-occurrence deduplication: the key order of a Python dict built by
successive `counter[k] = counter.get(k, 0) + 1` updates. -/
def dedupFirst : List String → List String
  | [] => []
  | x :: xs => x :: (dedupFirst xs).filter (fun y => y ≠ x)

theorem mem_dedupFirst {y : String} : ∀ {l : List String}, y ∈ dedupFirst l ↔ y ∈ l := by
  intro l
  induction l with
  | nil => simp [dedupFirst]
  | cons x xs ih =>
    by_cases hyx : y = x
    · simp [dedupFirst, hyx]
    · simp [dedupFirst, hyx, List.mem_filter, ih]

theorem nodup_dedupFirst : ∀ (l : List String), (dedupFirst l).Nodup := by
  intro l
  induction l with
  | nil => simp [dedupFirst]
  | cons x xs ih =>
    refine List.Nodup.cons ?_ (List.Nodup.filter _ ih)
    intro hx
    exact absurd (List.of_mem_filter hx) (by simp)

/-- The multiset of countable ballots: the targets of `v_dict` that are the
no-lynch label or in the living set (`counter` increments, lines 178-183). -/
def valid_votes (v_dict : List (String × String)) (alive_people : List String)
    (no_lynch_label : String) : List String :=
  (v_dict.map Prod.snd).filter (fun t => decide (t = no_lynch_label ∨ t ∈ alive_people))

/-- The `counter` dict of `tally_votes_plurality`: keys in first-encounter
order, each mapped to its number of countable ballots. -/
def vote_counter (v_dict : List (String × String)) (alive_people : List String)
    (no_lynch_label : String) : List (String × Nat) :=
  (dedupFirst (valid_votes v_dict alive_people no_lynch_label)).map
    (fun k => (k, (valid_votes v_dict alive_people no_lynch_label).count k))

/-- `tally_votes_plurality`: plurality execution; ties and a no-lynch
plurality (when allowed) give no execution. -/
def tally_votes_plurality (v_dict : List (String × String)) (alive_people : List String)
    (allow_no_lynch : Bool) (no_lynch_label : String) :
    Option String × List (String × Nat) :=
  let counter := vote_counter v_dict alive_people no_lynch_label
  if counter.isEmpty then (none, [])
  else
    let top_cnt := (counter.map Prod.snd).foldr max 0
    let top_names :=
      List.insertionSort pyLe ((counter.filter (fun kc => kc.2 = top_cnt)).map Prod.fst)
    match top_names with
    | [top_name] =>
      if allow_no_lynch = true ∧ top_name = no_lynch_label then (none, counter)
      else ((if top_name ∈ alive_people then some top_name else none), counter)
    | _ => (none, counter)

theorem le_foldr_max {l : List Nat} {x : Nat} (h : x ∈ l) : x ≤ l.foldr max 0 := by
  induction l with
  | nil => simp at h
  | cons a as ih =>
    rcases List.mem_cons.mp h with rfl | h'
    · exact le_max_left _ _
    · exact le_trans (ih h') (le_max_right _ _)

theorem foldr_max_le {l : List Nat} {m : Nat} (h : ∀ x ∈ l, x ≤ m) : l.foldr max 0 ≤ m := by
  induction l with
  | nil => simp
  | cons a as ih =>
    simp only [List.foldr_cons]
    exact max_le (h a (by simp)) (ih fun x hx => h x (List.mem_cons_of_mem _ hx))

/-- In a duplicate-free list where `t` is the unique element satisfying `p`,
filtering by `p` leaves exactly `[t]`. -/
theorem filter_eq_singleton_of_nodup {l : List String} {p : String → Bool} {t : String}
    (hnd : l.Nodup) (ht : t ∈ l) (hp : ∀ k ∈ l, p k = true ↔ k = t) :
    l.filter p = [t] := by
  induction l with
  | nil => simp at ht
  | cons a as ih =>
    by_cases hat : a = t
    · have ha : p a = true := (hp a (by simp)).mpr hat
      have has : as.filter p = [] := by
        rw [List.filter_eq_nil_iff]
        intro k hk hkp
        have hk2 : k = t := (hp k (List.mem_cons_of_mem _ hk)).mp hkp
        have hmem : a ∈ as := by rw [hat, ← hk2]; exact hk
        exact (List.nodup_cons.mp hnd).1 hmem
      simp [List.filter_cons, ha, has, ← hat]
    · have hta : t ∈ as := by
        rcases List.mem_cons.mp ht with h | h
        · exact absurd h.symm hat
        · exact h
      have ha : p a = false := by
        by_cases hpa : p a = true
        · exact absurd ((hp a (by simp)).mp hpa) hat
        · simpa using hpa
      have hrec := ih (List.nodup_cons.mp hnd).2 hta
        (fun k hk => hp k (List.mem_cons_of_mem _ hk))
      simp [List.filter_cons, ha, hrec]

theorem two_le_length_of_mem_ne {l : List String} {a b : String}
    (ha : a ∈ l) (hb : b ∈ l) (hab : a ≠ b) : 2 ≤ l.length := by
  rcases l with _ | ⟨x, _ | ⟨y, rest⟩⟩
  · simp at ha
  · simp at ha hb
    subst ha; subst hb
    exact absurd rfl hab
  · simp only [List.length_cons]
    omega

/-- When `t` holds the strict maximum ballot count, the fold over the counter
values computes exactly `t`'s count. -/
theorem vote_counter_keys_max (v : List (String × String)) (alive : List String)
    (lbl t : String) (ht : t ∈ valid_votes v alive lbl)
    (hmax : ∀ u ∈ valid_votes v alive lbl, u ≠ t →
      (valid_votes v alive lbl).count u < (valid_votes v alive lbl).count t) :
    ((vote_counter v alive lbl).map Prod.snd).foldr max 0 =
      (valid_votes v alive lbl).count t := by
  apply le_antisymm
  · apply foldr_max_le
    intro x hx
    simp only [vote_counter, List.map_map, List.mem_map, Function.comp] at hx
    obtain ⟨k, hk, rfl⟩ := hx
    by_cases hkt : k = t
    · subst hkt; exact le_refl _
    · exact le_of_lt (hmax k (mem_dedupFirst.mp hk) hkt)
  · apply le_foldr_max
    simp only [vote_counter, List.map_map, List.mem_map, Function.comp]
    exact ⟨t, mem_dedupFirst.mpr ht, rfl⟩

/-- When `t` holds the strict maximum ballot count, the list of top-count
names that `tally_votes_plurality` sorts is exactly `[t]`. -/
theorem vote_counter_top_names (v : List (String × String)) (alive : List String)
    (lbl t : String) (ht : t ∈ valid_votes v alive lbl)
    (hmax : ∀ u ∈ valid_votes v alive lbl, u ≠ t →
      (valid_votes v alive lbl).count u < (valid_votes v alive lbl).count t) :
    ((vote_counter v alive lbl).filter
      (fun kc => kc.2 = ((vote_counter v alive lbl).map Prod.snd).foldr max 0)).map
        Prod.fst = [t] := by
  rw [vote_counter_keys_max v alive lbl t ht hmax]
  unfold vote_counter
  rw [List.filter_map]
  have hkeys : (dedupFirst (valid_votes v alive lbl)).filter
      ((fun kc => decide (kc.2 = (valid_votes v alive lbl).count t)) ∘
        fun k => (k, (valid_votes v alive lbl).count k)) = [t] := by
    apply filter_eq_singleton_of_nodup (nodup_dedupFirst _) (mem_dedupFirst.mpr ht)
    intro k hk
    simp only [Function.comp, decide_eq_true_eq]
    constructor
    · intro hck
      by_contra hkt
      exact absurd hck (Nat.ne_of_lt (hmax k (mem_dedupFirst.mp hk) hkt))
    · intro hkt; subst hkt; rfl
  rw [hkeys]
  simp

/-- The counter component of the tally result is always the `counter` dict
(in the no-valid-votes case both are empty). -/
theorem tally_snd (v : List (String × String)) (alive : List String)
    (allow : Bool) (lbl : String) :
    (tally_votes_plurality v alive allow lbl).2 = vote_counter v alive lbl := by
  simp only [tally_votes_plurality]
  split
  case isTrue hie =>
    exact (List.isEmpty_iff.mp hie).symm
  case isFalse hie =>
    split
    · split <;> rfl
    · rfl

theorem vote_counter_ne_empty {v : List (String × String)} {alive : List String}
    {lbl t : String} (ht : t ∈ valid_votes v alive lbl) :
    (vote_counter v alive lbl).isEmpty = false := by
  have hk : t ∈ dedupFirst (valid_votes v alive lbl) := mem_dedupFirst.mpr ht
  rcases hdl : dedupFirst (valid_votes v alive lbl) with _ | ⟨a, as⟩
  · rw [hdl] at hk; simp at hk
  · simp [vote_counter, hdl]

/-- C2: whenever the valid ballots give a unique strictly-highest count to a
living target that is not the no-lynch label, `tally_votes_plurality`
executes exactly that target. -/
theorem tally_unique_max_executes
    (v : List (String × String)) (alive : List String) (allow : Bool) (lbl t : String)
    (ht_alive : t ∈ alive) (ht_lbl : t ≠ lbl)
    (ht_pos : 0 < (valid_votes v alive lbl).count t)
    (hmax : ∀ u ∈ valid_votes v alive lbl, u ≠ t →
      (valid_votes v alive lbl).count u < (valid_votes v alive lbl).count t) :
    (tally_votes_plurality v alive allow lbl).1 = some t := by
  have ht : t ∈ valid_votes v alive lbl := List.count_pos_iff.mp ht_pos
  simp only [tally_votes_plurality, vote_counter_ne_empty ht, Bool.false_eq_true, if_false]
  rw [vote_counter_top_names v alive lbl t ht hmax]
  have hsort : List.insertionSort pyLe [t] = [t] := rfl
  rw [hsort]
  have hcond : ¬(allow = true ∧ t = lbl) := fun h => ht_lbl h.2
  simp [hcond, ht_alive]

/-- C2 witness: two ballots for 민수 against one no-lynch ballot execute 민수. -/
theorem tally_unique_max_executes_witness :
    (tally_votes_plurality [("당신", "민수"), ("지연", "민수"), ("민수", "무처형")]
      ["당신", "민수", "지연"] true "무처형").1 = some "민수" :=
  tally_unique_max_executes _ _ _ _ _ (by decide) (by decide) (by decide) (by decide)

/-- Whenever the sorted top-count name list has two or more entries, the
tally executes nobody. -/
theorem tally_fst_of_two_le (v : List (String × String)) (alive : List String)
    (allow : Bool) (lbl : String)
    (hlen : 2 ≤ (List.insertionSort pyLe (((vote_counter v alive lbl).filter
      (fun kc => kc.2 = ((vote_counter v alive lbl).map Prod.snd).foldr max 0)).map
        Prod.fst)).length) :
    (tally_votes_plurality v alive allow lbl).1 = none := by
  simp only [tally_votes_plurality]
  split
  case isTrue hie => rfl
  case isFalse hie =>
    rcases htn : List.insertionSort pyLe (((vote_counter v alive lbl).filter
        (fun kc => kc.2 = ((vote_counter v alive lbl).map Prod.snd).foldr max 0)).map
          Prod.fst) with _ | ⟨x, _ | ⟨y, rest⟩⟩
    · rw [htn] at hlen; simp at hlen
    · rw [htn] at hlen; simp at hlen
    · rw [htn]

/-- C3: a tie among two or more top-count targets gives no execution, and so
does a unique no-lynch-label maximum when no-lynch is allowed. -/
theorem tally_tie_or_nolynch_none
    (v : List (String × String)) (alive : List String) (allow : Bool) (lbl : String) :
    (∀ t₁ t₂, t₁ ∈ valid_votes v alive lbl → t₂ ∈ valid_votes v alive lbl → t₁ ≠ t₂ →
      (valid_votes v alive lbl).count t₁ = (valid_votes v alive lbl).count t₂ →
      (∀ u ∈ valid_votes v alive lbl,
        (valid_votes v alive lbl).count u ≤ (valid_votes v alive lbl).count t₁) →
      (tally_votes_plurality v alive allow lbl).1 = none) ∧
    (allow = true → lbl ∈ valid_votes v alive lbl →
      (∀ u ∈ valid_votes v alive lbl, u ≠ lbl →
        (valid_votes v alive lbl).count u < (valid_votes v alive lbl).count lbl) →
      (tally_votes_plurality v alive allow lbl).1 = none) := by
  constructor
  · intro t₁ t₂ ht₁ ht₂ hne hcnt hub
    apply tally_fst_of_two_le
    have htop : ((vote_counter v alive lbl).map Prod.snd).foldr max 0 =
        (valid_votes v alive lbl).count t₁ := by
      apply le_antisymm
      · apply foldr_max_le
        intro x hx
        simp only [vote_counter, List.map_map, List.mem_map, Function.comp] at hx
        obtain ⟨k, hk, rfl⟩ := hx
        exact hub k (mem_dedupFirst.mp hk)
      · apply le_foldr_max
        simp only [vote_counter, List.map_map, List.mem_map, Function.comp]
        exact ⟨t₁, mem_dedupFirst.mpr ht₁, rfl⟩
    have hmem : ∀ s, s ∈ valid_votes v alive lbl →
        (valid_votes v alive lbl).count s = (valid_votes v alive lbl).count t₁ →
        s ∈ List.insertionSort pyLe (((vote_counter v alive lbl).filter
          (fun kc => kc.2 = ((vote_counter v alive lbl).map Prod.snd).foldr max 0)).map
            Prod.fst) := by
      intro s hs hcs
      rw [(List.perm_insertionSort pyLe _).mem_iff]
      refine List.mem_map.mpr ⟨(s, (valid_votes v alive lbl).count s), ?_, rfl⟩
      refine List.mem_filter.mpr ⟨?_, ?_⟩
      · exact List.mem_map.mpr ⟨s, mem_dedupFirst.mpr hs, rfl⟩
      · rw [htop]
        simpa using hcs
    exact two_le_length_of_mem_ne (hmem t₁ ht₁ rfl) (hmem t₂ ht₂ hcnt.symm) hne
  · intro hallow hlbl hmax
    simp only [tally_votes_plurality, vote_counter_ne_empty hlbl, Bool.false_eq_true,
      if_false]
    rw [vote_counter_top_names v alive lbl lbl hlbl hmax]
    have hsort : List.insertionSort pyLe [lbl] = [lbl] := rfl
    rw [hsort]
    simp [hallow]

/-- C3 witness: an A/B tie and a no-lynch plurality both execute nobody. -/
theorem tally_tie_or_nolynch_none_witness :
    (tally_votes_plurality [("A", "B"), ("B", "A")] ["A", "B"] true "무처형").1 = none ∧
    (tally_votes_plurality [("A", "무처형"), ("B", "무처형"), ("C", "A")]
      ["A", "B", "C"] true "무처형").1 = none :=
  ⟨(tally_tie_or_nolynch_none _ _ _ _).1 "B" "A" (by decide) (by decide) (by decide)
      (by decide) (by decide),
    (tally_tie_or_nolynch_none _ _ _ _).2 rfl (by decide) (by decide)⟩

/-- C10: whatever the ballots, a returned executed name is always a member
of the living set that was passed in. -/
theorem tally_executed_mem_alive
    (v : List (String × String)) (alive : List String) (allow : Bool) (lbl t : String)
    (h : (tally_votes_plurality v alive allow lbl).1 = some t) : t ∈ alive := by
  simp only [tally_votes_plurality] at h
  split at h
  · simp at h
  · split at h
    · split at h
      · simp at h
      · split at h
        case isTrue hmem =>
          simp only [Prod.fst] at h
          rw [Option.some_inj] at h
          exact h ▸ hmem
        case isFalse hmem => simp at h
    · simp at h

/-- C10 witness: a single valid ballot executes its target, which is living. -/
theorem tally_executed_mem_alive_witness : ("B" : String) ∈ ["B"] :=
  tally_executed_mem_alive [("a", "B")] ["B"] true "무처형" "B" (by decide)

theorem lookup_map_pair (g : String → Nat) :
    ∀ (l : List String) (t : String),
      (l.map (fun k => (k, g k))).lookup t = if t ∈ l then some (g t) else none := by
  intro l
  induction l with
  | nil => intro t; simp
  | cons k ks ih =>
    intro t
    by_cases hkt : t = k
    · subst hkt
      simp [List.lookup]
    · simp [List.lookup, hkt, ih, beq_false_of_ne hkt]

/-- Within the living-or-label ballots, each target's count is exactly the
number of ballots naming it. -/
theorem count_valid_votes (v : List (String × String)) (alive : List String)
    (lbl t : String) (hvalid : t = lbl ∨ t ∈ alive) :
    (valid_votes v alive lbl).count t =
      (v.filter (fun b => decide (b.2 = t))).length := by
  unfold valid_votes
  induction v with
  | nil => rfl
  | cons b bs ih =>
    rw [List.map_cons, List.filter_cons, List.filter_cons]
    by_cases hbv : b.2 = lbl ∨ b.2 ∈ alive
    · rw [if_pos (decide_eq_true hbv)]
      by_cases hb : b.2 = t
      · rw [if_pos (decide_eq_true hb), hb, List.count_cons_self, ih, List.length_cons]
      · rw [if_neg (by simpa using hb), List.count_cons_of_ne (fun h => hb h.symm), ih]
    · have hb : ¬b.2 = t := fun h => hbv (h ▸ hvalid)
      rw [if_neg (by simpa using hbv), if_neg (by simpa using hb)]
      exact ih

/-- C7: ballots with a target that is neither living nor the no-lynch label
appear in no count; each remaining ballot adds exactly one to its target's
count; and with no valid ballots the tally is no execution with an empty
count map. -/
theorem tally_ballot_accounting (v : List (String × String)) (alive : List String)
    (allow : Bool) (lbl : String) :
    (∀ t, t ≠ lbl → t ∉ alive →
      ((tally_votes_plurality v alive allow lbl).2).lookup t = none) ∧
    (∀ t, (t = lbl ∨ t ∈ alive) → t ∈ v.map Prod.snd →
      ((tally_votes_plurality v alive allow lbl).2).lookup t =
        some ((v.filter (fun b => decide (b.2 = t))).length)) ∧
    ((∀ b ∈ v, b.2 ≠ lbl ∧ b.2 ∉ alive) →
      tally_votes_plurality v alive allow lbl = (none, [])) := by
  refine ⟨?_, ?_, ?_⟩
  · intro t htl hta
    rw [tally_snd]
    unfold vote_counter
    rw [lookup_map_pair]
    have : t ∉ valid_votes v alive lbl := by
      intro hmem
      rcases List.mem_filter.mp hmem with ⟨-, hdec⟩
      rcases of_decide_eq_true hdec with h | h
      · exact htl h
      · exact hta h
    simp [mem_dedupFirst, this]
  · intro t hvalid hmem
    rw [tally_snd]
    unfold vote_counter
    rw [lookup_map_pair]
    have htv : t ∈ valid_votes v alive lbl :=
      List.mem_filter.mpr ⟨hmem, decide_eq_true hvalid⟩
    rw [if_pos (mem_dedupFirst.mpr htv), count_valid_votes v alive lbl t hvalid]
  · intro hall
    have hvv : valid_votes v alive lbl = [] := by
      rw [valid_votes, List.filter_eq_nil_iff]
      intro a ha
      obtain ⟨b, hb, rfl⟩ := List.mem_map.mp ha
      simp only [decide_eq_true_eq]
      intro hcon
      rcases hcon with h | h
      · exact (hall b hb).1 h
      · exact (hall b hb).2 h
    have hce : vote_counter v alive lbl = [] := by
      simp [vote_counter, hvv, dedupFirst]
    simp [tally_votes_plurality, hce]

/-- C7 witness: a ballot for the dead name X is discarded, the two ballots
for B are both counted, and an all-invalid vote map yields no execution and
an empty counter. -/
theorem tally_ballot_accounting_witness :
    ((tally_votes_plurality [("a", "X"), ("b", "B"), ("c", "B")] ["B"] true "무처형").2).lookup
        "X" = none ∧
    ((tally_votes_plurality [("a", "X"), ("b", "B"), ("c", "B")] ["B"] true "무처형").2).lookup
        "B" = some 2 ∧
    tally_votes_plurality [("a", "X"), ("b", "Y")] ["B"] true "무처형" = (none, []) :=
  ⟨(tally_ballot_accounting [("a", "X"), ("b", "B"), ("c", "B")] ["B"] true "무처형").1
      "X" (by decide) (by decide),
    (tally_ballot_accounting [("a", "X"), ("b", "B"), ("c", "B")] ["B"] true "무처형").2.1
      "B" (by decide) (by decide),
    (tally_ballot_accounting [("a", "X"), ("b", "Y")] ["B"] true "무처형").2.2 (by decide)⟩

/-! ## Game creation (`create_default_game`) -/

/-- The fixed seven-name roster of `create_default_game`. -/
def default_names : List String := ["당신", "민수", "지연", "현우", "수아", "하린", "태훈"]

/-- `create_default_game`; the `random.choice` over the six AI names is
injected as the index `k`, reduced modulo the pool size. -/
def create_default_game (k : Nat) : GameState :=
  let players0 := default_names.map (fun n => Player.mk n Role.CITIZEN true)
  let ai_alive := default_names.filter (fun n => n ≠ "당신")
  let pick := ai_alive.getD (k % ai_alive.length) ""
  { players := players0.map (fun p =>
      if p.name = pick then { p with role := Role.MAFIA } else p) }

/-- C5: for every random draw, `create_default_game` yields the 7 fixed
players, all alive, the human a citizen, exactly one (AI) mafia, round 1,
phase NIGHT, and empty transcript, line cache and log. -/
theorem create_default_game_spec (k : Nat) :
    (create_default_game k).round = 1 ∧
    (create_default_game k).phase = Phase.NIGHT ∧
    (create_default_game k).log = [] ∧
    (create_default_game k).dialogue_history = [] ∧
    (create_default_game k).last_line_by_name = [] ∧
    (create_default_game k).dialogue_round_start_idx = 0 ∧
    (create_default_game k).players.map Player.name = default_names ∧
    (∀ p ∈ (create_default_game k).players, p.alive = true) ∧
    (∀ p ∈ (create_default_game k).players, p.name = "당신" → p.role = Role.CITIZEN) ∧
    ((create_default_game k).players.filter (fun p => p.role == Role.MAFIA)).length = 1 ∧
    (∀ p ∈ (create_default_game k).players, p.role = Role.MAFIA → p.name ≠ "당신") := by
  have hlen : (default_names.filter (fun n => n ≠ "당신")).length = 6 := rfl
  have h6 : k % (default_names.filter (fun n => n ≠ "당신")).length = 0 ∨
      k % (default_names.filter (fun n => n ≠ "당신")).length = 1 ∨
      k % (default_names.filter (fun n => n ≠ "당신")).length = 2 ∨
      k % (default_names.filter (fun n => n ≠ "당신")).length = 3 ∨
      k % (default_names.filter (fun n => n ≠ "당신")).length = 4 ∨
      k % (default_names.filter (fun n => n ≠ "당신")).length = 5 := by
    rw [hlen]; omega
  simp only [create_default_game]
  rcases h6 with h | h | h | h | h | h <;> rw [h] <;> decide

/-! ## Night resolution (`mafia_kill`) -/

/-- `get_current_mafia`: the first living mafia in player order, if any. -/
def get_current_mafia (gs : GameState) : Option String :=
  (gs.players.find? (fun p => p.alive && p.role == Role.MAFIA)).map (fun p => p.name)

/-- Substring test on character lists (Python's `in` on strings). -/
def isSubLst (pat : List Char) : List Char → Bool
  | [] => pat.isEmpty
  | c :: rest => pat.isPrefixOf (c :: rest) || isSubLst pat rest

/-- Python `name in line` for strings. -/
def strContains (line name : String) : Bool :=
  isSubLst name.data line.data

/-- `mafia_kill`; the two `random.choice` draws are injected as `choice`,
which picks one element out of the (nonempty) pool it is given.  Returns the
victim (if any) together with the updated state. -/
def mafia_kill (gs : GameState) (choice : List String → String) :
    Option String × GameState :=
  if gs.round = 1 then
    (none, { gs with log := gs.log ++ ["첫 밤은 평화롭게 지나갔습니다."] })
  else
    match get_current_mafia gs with
    | none => (none, gs)
    | some mafia_name =>
      let alive := gs.alive_players
      let candidates := alive.filter (fun n => n ≠ mafia_name)
      if candidates.isEmpty then (none, gs)
      else
        let window := gs.dialogue_history.drop (gs.dialogue_history.length - 30)
        let counts := fun n => (window.filter (fun line => strContains line n)).length
        let pick :=
          if candidates.any (fun n => 0 < counts n) then
            choice (candidates.filter
              (fun n => counts n = (candidates.map counts).foldr max 0))
          else choice candidates
        if gs.players.any (fun p => p.name = pick && p.alive) then
          (some pick,
            { gs with
              players := gs.players.map (fun p =>
                if p.name = pick then { p with alive := false } else p),
              log := gs.log ++ ["밤에 " ++ pick ++ "이(가) 사망했습니다."] })
        else (none, gs)

/-- C4: at round 1 the night resolution returns no victim, appends exactly
the fixed peaceful-first-night entry to the log, and changes nothing else. -/
theorem mafia_kill_round_one (gs : GameState) (choice : List String → String)
    (h : gs.round = 1) :
    (mafia_kill gs choice).1 = none ∧
    (mafia_kill gs choice).2.log = gs.log ++ ["첫 밤은 평화롭게 지나갔습니다."] ∧
    (mafia_kill gs choice).2 =
      { gs with log := gs.log ++ ["첫 밤은 평화롭게 지나갔습니다."] } := by
  unfold mafia_kill
  rw [if_pos h]
  exact ⟨rfl, rfl, rfl⟩

/-- C4 witness: round-1 night on the live roster is peaceful. -/
theorem mafia_kill_round_one_witness :
    (mafia_kill liveState (fun l => l.getD 0 "")).1 = none ∧
    (mafia_kill liveState (fun l => l.getD 0 "")).2.log =
      liveState.log ++ ["첫 밤은 평화롭게 지나갔습니다."] ∧
    (mafia_kill liveState (fun l => l.getD 0 "")).2 =
      { liveState with log := liveState.log ++ ["첫 밤은 평화롭게 지나갔습니다."] } :=
  mafia_kill_round_one liveState (fun l => l.getD 0 "") rfl

/-! ## Mention aggregation (`mention_counts_for_today`, `top_two_mentions`) -/

/-- Non-overlapping left-to-right occurrence count: Python `line.count(name)`
for a nonempty `name`. -/
def countOcc (name : List Char) : List Char → Nat
  | [] => 0
  | c :: rest =>
    if h : name ≠ [] ∧ name.isPrefixOf (c :: rest) then
      countOcc name ((c :: rest).drop name.length) + 1
    else countOcc name rest
  termination_by l => l.length
  decreasing_by
  · simp only [List.length_drop, List.length_cons]
    have hl : 1 ≤ name.length := by
      rcases name with _ | ⟨a, as⟩
      · exact absurd rfl h.1
      · simp
    omega
  · simp only [List.length_cons]; omega

/-- `_count_name_in_line`: substring occurrence count with empty guards. -/
def count_name_in_line (name line : String) : Nat :=
  if name.data = [] ∨ line.data = [] then 0
  else countOcc name.data line.data

/-- `mention_counts_for_today`: per living non-human name, the total
occurrence count over the current day window of the transcript. -/
def mention_counts_for_today (gs : GameState) : List (String × Nat) :=
  let window := gs.dialogue_history.drop gs.dialogue_round_start_idx
  (gs.alive_players.filter (fun n => n ≠ "당신")).map
    (fun n => (n, (window.map (fun line => count_name_in_line n line)).sum))

/-- Today's mention count of a name, `counts.get(x, 0)`. -/
def cntToday (gs : GameState) (x : String) : Nat :=
  ((mention_counts_for_today gs).lookup x).getD 0

theorem lexLe_total : ∀ a b : List Char, lexLe a b = true ∨ lexLe b a = true := by
  intro a
  induction a with
  | nil => intro b; left; rfl
  | cons x xs ih =>
    intro b
    rcases b with _ | ⟨y, ys⟩
    · right; rfl
    · simp only [lexLe, Bool.or_eq_true, Bool.and_eq_true, decide_eq_true_eq, beq_iff_eq]
      rcases Nat.lt_trichotomy x.toNat y.toNat with h | h | h
      · left; left; exact h
      · rcases ih ys with hl | hl
        · left; right; exact ⟨h, hl⟩
        · right; right; exact ⟨h.symm, hl⟩
      · right; left; exact h

theorem lexLe_trans : ∀ {a b c : List Char},
    lexLe a b = true → lexLe b c = true → lexLe a c = true := by
  intro a
  induction a with
  | nil => intro b c _ _; rfl
  | cons x xs ih =>
    intro b c hab hbc
    rcases b with _ | ⟨y, ys⟩
    · simp [lexLe] at hab
    · rcases c with _ | ⟨z, zs⟩
      · simp [lexLe] at hbc
      · simp only [lexLe, Bool.or_eq_true, Bool.and_eq_true, decide_eq_true_eq,
          beq_iff_eq] at hab hbc ⊢
        rcases hab with h1 | ⟨h1, h1'⟩
        · rcases hbc with h2 | ⟨h2, h2'⟩
          · left; omega
          · left; omega
        · rcases hbc with h2 | ⟨h2, h2'⟩
          · left; omega
          · right; exact ⟨by omega, ih h1' h2'⟩

/-- The Python sort key `(-count, name)` as an order relation: descending
count, ties broken by ascending name.  On a duplicate-free name pool this is
a linear order, so the source's stable `sorted` and any correct sort agree. -/
def rankLe (cnt : String → Nat) (a b : String) : Prop :=
  cnt b < cnt a ∨ (cnt a = cnt b ∧ pyLe a b)

instance (cnt : String → Nat) : DecidableRel (rankLe cnt) := fun a b => by
  unfold rankLe; infer_instance

instance (cnt : String → Nat) : IsTotal String (rankLe cnt) where
  total a b := by
    unfold rankLe
    rcases Nat.lt_trichotomy (cnt a) (cnt b) with h | h | h
    · right; left; exact h
    · rcases lexLe_total a.data b.data with hl | hl
      · left; right; exact ⟨h, hl⟩
      · right; right; exact ⟨h.symm, hl⟩
    · left; left; exact h

instance (cnt : String → Nat) : IsTrans String (rankLe cnt) where
  trans a b c hab hbc := by
    unfold rankLe at *
    rcases hab with h1 | ⟨h1, h1'⟩ <;> rcases hbc with h2 | ⟨h2, h2'⟩
    · left; omega
    · left; omega
    · left; omega
    · right; exact ⟨h1.trans h2, lexLe_trans h1' h2'⟩

/-- `top_two_mentions`; `random.shuffle` is injected as `shuffle` (the
theorems quantify over every permutation). -/
def top_two_mentions (gs : GameState) (shuffle : List String → List String) :
    List String :=
  let alive := gs.alive_players.filter (fun n => n ≠ "당신")
  if alive.length ≤ 2 then alive
  else
    let ranked := List.insertionSort (rankLe (cntToday gs)) alive
    let top2 := (ranked.filter (fun n => 0 < cntToday gs n)).take 2
    if top2.length < 2 then
      top2 ++ (shuffle (alive.filter (fun n => n ∉ top2))).take (2 - top2.length)
    else top2

theorem top_two_mentions_of_le (gs : GameState) (shuffle : List String → List String)
    (h : (gs.alive_players.filter (fun n => n ≠ "당신")).length ≤ 2) :
    top_two_mentions gs shuffle = gs.alive_players.filter (fun n => n ≠ "당신") := by
  simp only [top_two_mentions]
  rw [if_pos h]

theorem top_two_mentions_of_gt (gs : GameState) (shuffle : List String → List String)
    (h : ¬(gs.alive_players.filter (fun n => n ≠ "당신")).length ≤ 2) :
    top_two_mentions gs shuffle =
      (if (((List.insertionSort (rankLe (cntToday gs))
            (gs.alive_players.filter (fun n => n ≠ "당신"))).filter
          (fun n => 0 < cntToday gs n)).take 2).length < 2 then
        ((List.insertionSort (rankLe (cntToday gs))
            (gs.alive_players.filter (fun n => n ≠ "당신"))).filter
          (fun n => 0 < cntToday gs n)).take 2 ++
          (shuffle ((gs.alive_players.filter (fun n => n ≠ "당신")).filter
            (fun n => n ∉ ((List.insertionSort (rankLe (cntToday gs))
                (gs.alive_players.filter (fun n => n ≠ "당신"))).filter
              (fun n => 0 < cntToday gs n)).take 2))).take
            (2 - (((List.insertionSort (rankLe (cntToday gs))
                (gs.alive_players.filter (fun n => n ≠ "당신"))).filter
              (fun n => 0 < cntToday gs n)).take 2).length)
      else
        ((List.insertionSort (rankLe (cntToday gs))
            (gs.alive_players.filter (fun n => n ≠ "당신"))).filter
          (fun n => 0 < cntToday gs n)).take 2) := by
  simp only [top_two_mentions]
  rw [if_neg h]

theorem length_filter_split (l : List String) (p : String → Bool) :
    (l.filter p).length + (l.filter (fun x => !(p x))).length = l.length := by
  induction l with
  | nil => rfl
  | cons a as ih =>
    rcases hpa : p a <;> simp [List.filter_cons, hpa] <;> omega

theorem alive_filter_nodup (gs : GameState)
    (hnd : (gs.players.map Player.name).Nodup) :
    (gs.alive_players.filter (fun n => n ≠ "당신")).Nodup := by
  apply List.Nodup.filter
  unfold GameState.alive_players
  exact List.Nodup.sublist
    (List.Sublist.map Player.name (List.filter_sublist gs.players)) hnd

/-- C6: with at least two living non-human players, `top_two_mentions`
returns exactly two distinct living non-human names; a pool of exactly two
is returned unchanged; every returned name ranks at least as high (by
descending day-window count, then ascending name) as any positive-count
player left out; and when fewer than two players have a positive count
every positive-count player is returned (the rest being random fill from
the pool) — all of this for every shuffle permutation, hence in particular
when all day-window counts are zero. -/
theorem top_two_mentions_spec (gs : GameState) (shuffle : List String → List String)
    (hshuffle : ∀ l, (shuffle l).Perm l)
    (hnd : (gs.players.map Player.name).Nodup)
    (h2 : 2 ≤ (gs.alive_players.filter (fun n => n ≠ "당신")).length) :
    (top_two_mentions gs shuffle).length = 2 ∧
    (top_two_mentions gs shuffle).Nodup ∧
    (∀ n ∈ top_two_mentions gs shuffle,
      n ∈ gs.alive_players.filter (fun n => n ≠ "당신")) ∧
    ((gs.alive_players.filter (fun n => n ≠ "당신")).length = 2 →
      top_two_mentions gs shuffle = gs.alive_players.filter (fun n => n ≠ "당신")) ∧
    (∀ y ∈ gs.alive_players.filter (fun n => n ≠ "당신"), 0 < cntToday gs y →
      y ∉ top_two_mentions gs shuffle →
      ∀ x ∈ top_two_mentions gs shuffle, rankLe (cntToday gs) x y) ∧
    (((gs.alive_players.filter (fun n => n ≠ "당신")).filter
        (fun n => 0 < cntToday gs n)).length < 2 →
      ∀ y ∈ gs.alive_players.filter (fun n => n ≠ "당신"), 0 < cntToday gs y →
      y ∈ top_two_mentions gs shuffle) := by
  by_cases hA2 : (gs.alive_players.filter (fun n => n ≠ "당신")).length ≤ 2
  · have hres := top_two_mentions_of_le gs shuffle hA2
    have hlen : (gs.alive_players.filter (fun n => n ≠ "당신")).length = 2 :=
      le_antisymm hA2 h2
    rw [hres]
    exact ⟨hlen, alive_filter_nodup gs hnd, fun n hn => hn, fun _ => rfl,
      fun y hy _ hynot => (hynot hy).elim,
      fun _ y hy _ => hy⟩
  · have hres := top_two_mentions_of_gt gs shuffle hA2
    set A := gs.alive_players.filter (fun n => n ≠ "당신") with hAdef
    set cnt := cntToday gs with hcntdef
    set ranked := List.insertionSort (rankLe cnt) A with hrankeddef
    set P := ranked.filter (fun n => 0 < cnt n) with hPdef
    set top2 := P.take 2 with htop2def
    set pool := A.filter (fun n => n ∉ top2) with hpooldef
    have hA3 : 3 ≤ A.length := by omega
    have hndA : A.Nodup := alive_filter_nodup gs hnd
    have hperm : ranked.Perm A := List.perm_insertionSort _ _
    have hrankednd : ranked.Nodup := hperm.nodup_iff.mpr hndA
    have hsorted : List.Pairwise (rankLe cnt) ranked :=
      List.sorted_insertionSort (rankLe cnt) A
    have hPnd : P.Nodup := List.Nodup.filter _ hrankednd
    have hPsorted : List.Pairwise (rankLe cnt) P := List.Pairwise.filter _ hsorted
    have htop2nd : top2.Nodup := List.Nodup.sublist (List.take_sublist 2 P) hPnd
    have hPmemA : ∀ n ∈ P, n ∈ A :=
      fun n hn => hperm.mem_iff.mp (List.mem_filter.mp hn).1
    have htop2memA : ∀ n ∈ top2, n ∈ A :=
      fun n hn => hPmemA n ((List.take_sublist 2 P).subset hn)
    have hpos_mem_P : ∀ y ∈ A, 0 < cnt y → y ∈ P :=
      fun y hy hpos => List.mem_filter.mpr ⟨hperm.mem_iff.mpr hy, by simpa using hpos⟩
    by_cases htl : top2.length < 2
    · rw [hres, if_pos htl]
      have hP1 : P.length < 2 := by
        rw [htop2def, List.length_take] at htl
        omega
      have htop2P : top2 = P := List.take_of_length_le (by omega)
      have hpool_eq : A.filter (fun x => !(decide (x ∈ top2))) = pool := by
        apply List.filter_congr
        intro a _
        simp
      have hsubt : (A.filter (fun n => decide (n ∈ top2))).length ≤ top2.length :=
        (List.subperm_of_subset (List.Nodup.filter _ hndA)
          (fun a ha => by simpa using (List.mem_filter.mp ha).2)).length_le
      have hsplit := length_filter_split A (fun n => decide (n ∈ top2))
      rw [hpool_eq] at hsplit
      have hshlen : (shuffle pool).length = pool.length := (hshuffle pool).length_eq
      have hpoolnd : (shuffle pool).Nodup :=
        (hshuffle pool).nodup_iff.mpr (List.Nodup.filter _ hndA)
      have hpoolmemA : ∀ n ∈ pool, n ∈ A := fun n hn => (List.mem_filter.mp hn).1
      refine ⟨?_, ?_, ?_, ?_, ?_, ?_⟩
      · rw [List.length_append, List.length_take, List.length_take, hshlen]
        omega
      · refine List.nodup_append.mpr
          ⟨htop2nd, List.Nodup.sublist (List.take_sublist _ _) hpoolnd, ?_⟩
        intro a ha ha'
        have hap : a ∈ pool :=
          (hshuffle pool).mem_iff.mp ((List.take_sublist _ _).subset ha')
        have : a ∉ top2 := by simpa using (List.mem_filter.mp hap).2
        exact this ha
      · intro n hn
        rcases List.mem_append.mp hn with h | h
        · exact htop2memA n h
        · exact hpoolmemA n ((hshuffle pool).mem_iff.mp ((List.take_sublist _ _).subset h))
      · intro hAl2
        exact absurd (by omega : A.length ≤ 2) hA2
      · intro y hy hpos hnot x hx
        exact (hnot (List.mem_append.mpr (Or.inl (htop2P ▸ hpos_mem_P y hy hpos)))).elim
      · intro _ y hy hpos
        exact List.mem_append.mpr (Or.inl (htop2P ▸ hpos_mem_P y hy hpos))
    · rw [hres, if_neg htl]
      have htlen : top2.length = 2 := by
        rw [htop2def, List.length_take] at htl ⊢
        omega
      refine ⟨htlen, htop2nd, htop2memA, ?_, ?_, ?_⟩
      · intro hAl2
        exact absurd (by omega : A.length ≤ 2) hA2
      · intro y hy hpos hnot x hx
        have hyP : y ∈ P := hpos_mem_P y hy hpos
        have hPsplit : top2 ++ P.drop 2 = P := by
          rw [htop2def]
          exact List.take_append_drop 2 P
        have hpw : List.Pairwise (rankLe cnt) (top2 ++ P.drop 2) := by
          rw [hPsplit]
          exact hPsorted
        have hdropmem : y ∈ P.drop 2 := by
          rcases List.mem_append.mp (hPsplit ▸ hyP) with h | h
          · exact absurd h hnot
          · exact h
        exact (List.pairwise_append.mp hpw).2.2 x hx y hdropmem
      · intro hlt y hy hpos
        have hpermP : P.Perm (A.filter (fun n => 0 < cnt n)) := hperm.filter _
        have hPlen := hpermP.length_eq
        rw [htop2def, List.length_take] at htl
        omega

/-- C6 witness: the property instantiated on the live roster with the
identity shuffle (empty day window, all counts zero). -/
theorem top_two_mentions_spec_witness :
    (top_two_mentions liveState (fun l => l)).length = 2 :=
  (top_two_mentions_spec liveState (fun l => l) (fun l => List.Perm.refl l)
    (by decide) (by decide)).1

/-! ## Discussion round (`_anti_repeat_line`, `_ensure_all_speak`,
`day_discuss` in `main.py`) -/

/-- The fixed pool of atmospheric fallback phrases. -/
def FALLBACKS : List String :=
  ["(주위를 살핀다.)", "(눈을 피한다.)", "(작게 한숨을 쉰다.)", "(입술을 깨문다.)",
   "(아무 말 없이 분위기를 살핀다.)", "(잠시 침묵이 흐른다...)",
   "(의심스러운 표정으로 주변을 바라본다.)"]

/-- The generic-filler denylist (a Python set; only membership is used). -/
def GENERIC_PHRASES : List String :=
  ["저도 마찬가지입니다.", "동의합니다.", "단결해서 이 위기를 헤쳐나가자구요.",
   "항상 경계심을 가져야 합니다.", "조심해야 해요.", "믿고 단합합시다."]

/-- ASCII whitespace, the characters `str.strip()` removes on the inputs the
engine sees. -/
def isSpaceChar (c : Char) : Bool :=
  c = ' ' || c = '\t' || c = '\n' || c = '\r' || c = Char.ofNat 11 || c = Char.ofNat 12

/-- Python `line.strip()`. -/
def pyStrip (s : String) : String :=
  ⟨((s.data.dropWhile isSpaceChar).reverse.dropWhile isSpaceChar).reverse⟩

/-- `_anti_repeat_line`; the `random.choice(FALLBACKS)` draw is injected as
`fb`. -/
def anti_repeat_line (gs : GameState) (name line : String) (fb : String) : String :=
  let last := (gs.last_line_by_name.lookup name).getD ""
  let norm := pyStrip line
  if norm = "" ∨ norm ∈ GENERIC_PHRASES ∨ norm = last then fb else norm

/-- The anti-repeat pass of `_ensure_all_speak` over the proposed pairs;
`fbFix i` is the fallback drawn for the `i`-th pair if its line is rejected. -/
def fix_pairs (gs : GameState) (fbFix : Nat → String) :
    Nat → List (String × String) → List (String × String)
  | _, [] => []
  | i, (n, l) :: rest =>
    (n, anti_repeat_line gs n l (fbFix i)) :: fix_pairs gs fbFix (i + 1) rest

/-- The backfill pass of `_ensure_all_speak`: one fallback line (drawn as
`fbMiss name`) for every living non-human player that proposed nothing. -/
def backfill (spoken : List String) (fbMiss : String → String) :
    List String → List (String × String)
  | [] => []
  | n :: rest =>
    if n = "당신" ∨ n ∈ spoken then backfill spoken fbMiss rest
    else (n, fbMiss n) :: backfill spoken fbMiss rest

/-- `_ensure_all_speak`. -/
def ensure_all_speak (gs : GameState) (pairs : List (String × String))
    (fbFix : Nat → String) (fbMiss : String → String) : List (String × String) :=
  fix_pairs gs fbFix 0 pairs ++
    backfill (pairs.map Prod.fst) fbMiss gs.alive_players

/-- The `character_lines` filter of `day_discuss` (lines 97-101): keep the
items whose name is a living non-human player and whose line is nonempty. -/
def proposed_pairs (gs : GameState) (items : List (Option String × Option String)) :
    List (String × String) :=
  items.filterMap (fun it =>
    match it with
    | (some name, some line) =>
      if name ∈ gs.alive_players ∧ name ≠ "당신" ∧ line ≠ "" then some (name, line)
      else none
    | _ => none)

/-- The full pair list produced by one `day_discuss` round. -/
def day_discuss_pairs (gs : GameState) (items : List (Option String × Option String))
    (fbFix : Nat → String) (fbMiss : String → String) : List (String × String) :=
  ensure_all_speak gs (proposed_pairs gs items) fbFix fbMiss

/-- Python dict update `m[k] = v` on an association list: overwrite in place
or append. -/
def upsertStr (k v : String) : List (String × String) → List (String × String)
  | [] => [(k, v)]
  | (k', v') :: rest =>
    if k' = k then (k, v) :: rest else (k', v') :: upsertStr k v rest

/-- `day_discuss` (prints aside): appends one `"name: line"` transcript entry
per produced pair and updates the per-speaker last-line cache. -/
def day_discuss (gs : GameState) (items : List (Option String × Option String))
    (fbFix : Nat → String) (fbMiss : String → String) : GameState :=
  let pairs := day_discuss_pairs gs items fbFix fbMiss
  { gs with
    dialogue_history :=
      gs.dialogue_history ++ pairs.map (fun p => p.1 ++ ": " ++ p.2),
    last_line_by_name :=
      pairs.foldl (fun m p => upsertStr p.1 p.2 m) gs.last_line_by_name }

theorem fix_pairs_names (gs : GameState) (fbFix : Nat → String) :
    ∀ (i : Nat) (pairs : List (String × String)),
      (fix_pairs gs fbFix i pairs).map Prod.fst = pairs.map Prod.fst := by
  intro i pairs
  induction pairs generalizing i with
  | nil => rfl
  | cons a rest ih =>
    rcases a with ⟨n, l⟩
    simp [fix_pairs, ih]

theorem backfill_count (fbMiss : String → String) (spoken : List String) (p : String)
    (hp : p ≠ "당신") :
    ∀ l : List String,
      ((backfill spoken fbMiss l).map Prod.fst).count p =
        if p ∈ spoken then 0 else l.count p := by
  intro l
  induction l with
  | nil => simp [backfill]
  | cons n rest ih =>
    by_cases hn : n = "당신" ∨ n ∈ spoken
    · rw [backfill, if_pos hn, ih]
      by_cases hps : p ∈ spoken
      · simp [hps]
      · rw [if_neg hps, if_neg hps, List.count_cons]
        have : ¬n = p := by
          rintro rfl
          rcases hn with h | h
          · exact hp h
          · exact hps h
        simp [this]
    · rw [backfill, if_neg hn, List.map_cons, List.count_cons, List.count_cons, ih]
      push_neg at hn
      by_cases hps : p ∈ spoken
      · rw [if_pos hps, if_pos hps]
        have : ¬n = p := by
          rintro rfl
          exact hn.2 hps
        simp [this]
      · rw [if_neg hps, if_neg hps]

theorem alive_players_nodup (gs : GameState)
    (hnd : (gs.players.map Player.name).Nodup) : gs.alive_players.Nodup := by
  unfold GameState.alive_players
  exact List.Nodup.sublist
    (List.Sublist.map Player.name (List.filter_sublist gs.players)) hnd

/-- C8 counterexample: when the external service proposes the same living AI
name twice, that player gets two transcript entries in the round, refuting
"exactly one transcript entry per living AI player". -/
theorem day_discuss_claim_counterexample :
    "민수" ∈ liveState.alive_players ∧ "민수" ≠ "당신" ∧
    ((day_discuss_pairs liveState
        [(some "민수", some "안녕"), (some "민수", some "반가워")]
        (fun _ => "(눈을 피한다.)") (fun _ => "(눈을 피한다.)")).map
      Prod.fst).count "민수" = 2 := by
  decide

/-- C8 (amended): after one discussion round every living AI player has at
least one transcript entry — exactly `max(k, 1)` entries where `k` is the
number of times the external service validly proposed that player; omitted
players are backfilled with one fallback line, and a player proposed once
gets exactly one entry. -/
theorem day_discuss_entry_count (gs : GameState)
    (items : List (Option String × Option String))
    (fbFix : Nat → String) (fbMiss : String → String)
    (hnd : (gs.players.map Player.name).Nodup)
    (p : String) (hp : p ∈ gs.alive_players) (hp2 : p ≠ "당신") :
    ((day_discuss_pairs gs items fbFix fbMiss).map Prod.fst).count p =
      max (((proposed_pairs gs items).map Prod.fst).count p) 1 ∧
    (day_discuss gs items fbFix fbMiss).dialogue_history =
      gs.dialogue_history ++
        (day_discuss_pairs gs items fbFix fbMiss).map
          (fun q => q.1 ++ ": " ++ q.2) := by
  constructor
  · unfold day_discuss_pairs ensure_all_speak
    rw [List.map_append, List.count_append, fix_pairs_names,
      backfill_count fbMiss _ p hp2]
    by_cases hps : p ∈ (proposed_pairs gs items).map Prod.fst
    · rw [if_pos hps]
      have : 0 < ((proposed_pairs gs items).map Prod.fst).count p :=
        List.count_pos_iff.mpr hps
      omega
    · rw [if_neg hps]
      have hz : ((proposed_pairs gs items).map Prod.fst).count p = 0 :=
        List.count_eq_zero.mpr hps
      have ha : gs.alive_players.count p = 1 :=
        List.count_eq_one_of_mem (alive_players_nodup gs hnd) hp
      omega
  · rfl

/-- C8 witness: with no proposed lines at all, 민수 still gets exactly one
(backfilled) entry. -/
theorem day_discuss_entry_count_witness :
    ((day_discuss_pairs liveState [] (fun _ => "(눈을 피한다.)")
        (fun _ => "(눈을 피한다.)")).map Prod.fst).count "민수" =
      max (((proposed_pairs liveState []).map Prod.fst).count "민수") 1 ∧
    (day_discuss liveState [] (fun _ => "(눈을 피한다.)")
        (fun _ => "(눈을 피한다.)")).dialogue_history =
      liveState.dialogue_history ++
        (day_discuss_pairs liveState [] (fun _ => "(눈을 피한다.)")
          (fun _ => "(눈을 피한다.)")).map (fun q => q.1 ++ ": " ++ q.2) :=
  day_discuss_entry_count liveState [] (fun _ => "(눈을 피한다.)")
    (fun _ => "(눈을 피한다.)") (by decide) "민수" (by decide) (by decide)

/-! ## Persistence sanitization (`_clean_str`, `_sanitize` in `memory.py`) -/

/-- A Python string as its sequence of Unicode code points.  Python strings,
unlike Lean's, may contain lone surrogates — exactly the code points that
`encode("utf-8", "ignore")` drops; decoding the resulting valid UTF-8 with
`"ignore"` is the identity. -/
abbrev PyStr := List Nat

/-- The lone-surrogate range U+D800–U+DFFF. -/
def isSurrogate (c : Nat) : Bool := 0xD800 ≤ c && c ≤ 0xDFFF

/-- `_clean_str`: drop every unencodable (surrogate) code point. -/
def clean_str (s : PyStr) : PyStr := s.filter (fun c => !(isSurrogate c))

/-- A Python value as persisted by `MemoryStore`: scalars, strings,
sequences (list/tuple) and string-keyed mappings (every key of the persisted
document is a string, and `_sanitize` maps string keys through
`_clean_str`).  The set branch of `_sanitize` is outside the claimed
universe of mappings/sequences/strings/scalars and is not modelled. -/
inductive PyVal where
  | none
  | bool (b : Bool)
  | int (n : Int)
  | str (s : PyStr)
  | list (xs : List PyVal)
  | tuple (xs : List PyVal)
  | dict (kvs : List (PyStr × PyVal))
deriving Repr

/-- Python dict insertion `d[k] = v`: overwrite in place, else append. -/
def pyUpsert (k : PyStr) (v : PyVal) : List (PyStr × PyVal) → List (PyStr × PyVal)
  | [] => [(k, v)]
  | (k', v') :: rest =>
    if k' = k then (k, v) :: rest else (k', v') :: pyUpsert k v rest

/-- Building a dict from a pair sequence (the dict comprehension in
`_sanitize`): later duplicate keys overwrite earlier ones in place. -/
def pyDictOfPairs (l : List (PyStr × PyVal)) : List (PyStr × PyVal) :=
  l.foldl (fun acc kv => pyUpsert kv.1 kv.2 acc) []

/-- `_sanitize`: recursively clean every string, rebuilding dicts and
mapping over sequences; scalars and `None` pass through unchanged. -/
def sanitize : PyVal → PyVal
  | .none => .none
  | .bool b => .bool b
  | .int n => .int n
  | .str s => .str (clean_str s)
  | .dict kvs => .dict (pyDictOfPairs (kvs.attach.map
      (fun kv => (clean_str kv.1.1, sanitize kv.1.2))))
  | .list xs => .list (xs.attach.map (fun x => sanitize x.1))
  | .tuple xs => .tuple (xs.attach.map (fun x => sanitize x.1))
decreasing_by
  · have h := List.sizeOf_lt_of_mem kv.2
    rcases kv with ⟨⟨k, v⟩, hkv⟩
    simp at h ⊢
    omega
  · have h := List.sizeOf_lt_of_mem x.2
    simp at h ⊢
    omega
  · have h := List.sizeOf_lt_of_mem x.2
    simp at h ⊢
    omega

theorem sanitize_list (xs : List PyVal) :
    sanitize (.list xs) = .list (xs.map sanitize) := by
  simp only [sanitize]
  congr 1
  exact List.attach_map_val xs sanitize

theorem sanitize_tuple (xs : List PyVal) :
    sanitize (.tuple xs) = .tuple (xs.map sanitize) := by
  simp only [sanitize]
  congr 1
  exact List.attach_map_val xs sanitize

theorem sanitize_dict (kvs : List (PyStr × PyVal)) :
    sanitize (.dict kvs) =
      .dict (pyDictOfPairs (kvs.map (fun kv => (clean_str kv.1, sanitize kv.2)))) := by
  simp only [sanitize]
  congr 1
  congr 1
  exact List.attach_map_val kvs (fun kv => (clean_str kv.1, sanitize kv.2))

theorem PyVal.inductionOn (P : PyVal → Prop)
    (hnone : P .none) (hbool : ∀ b, P (.bool b)) (hint : ∀ n, P (.int n))
    (hstr : ∀ s, P (.str s))
    (hlist : ∀ xs, (∀ x ∈ xs, P x) → P (.list xs))
    (htuple : ∀ xs, (∀ x ∈ xs, P x) → P (.tuple xs))
    (hdict : ∀ kvs, (∀ kv ∈ kvs, P kv.2) → P (.dict kvs)) :
    ∀ v, P v
  | .none => hnone
  | .bool b => hbool b
  | .int n => hint n
  | .str s => hstr s
  | .list xs => hlist xs (fun x hx =>
      PyVal.inductionOn P hnone hbool hint hstr hlist htuple hdict x)
  | .tuple xs => htuple xs (fun x hx =>
      PyVal.inductionOn P hnone hbool hint hstr hlist htuple hdict x)
  | .dict kvs => hdict kvs (fun kv hkv =>
      PyVal.inductionOn P hnone hbool hint hstr hlist htuple hdict kv.2)
termination_by v => sizeOf v
decreasing_by
  · have h := List.sizeOf_lt_of_mem hx
    simp at h ⊢
    omega
  · have h := List.sizeOf_lt_of_mem hx
    simp at h ⊢
    omega
  · have h := List.sizeOf_lt_of_mem hkv
    rcases kv with ⟨k, v⟩
    simp at h ⊢
    omega

theorem clean_str_idem (s : PyStr) : clean_str (clean_str s) = clean_str s := by
  unfold clean_str
  rw [List.filter_filter]
  apply List.filter_congr
  intro a _
  cases isSurrogate a <;> rfl

theorem mem_pyUpsert {e : PyStr × PyVal} {k : PyStr} {v : PyVal} :
    ∀ {acc : List (PyStr × PyVal)}, e ∈ pyUpsert k v acc → e = (k, v) ∨ e ∈ acc := by
  intro acc
  induction acc with
  | nil => intro h; simpa [pyUpsert] using h
  | cons kv rest ih =>
    rcases kv with ⟨k', v'⟩
    intro h
    rw [pyUpsert] at h
    split at h
    · rcases List.mem_cons.mp h with h | h
      · exact Or.inl h
      · exact Or.inr (List.mem_cons_of_mem _ h)
    · rcases List.mem_cons.mp h with h | h
      · exact Or.inr (h ▸ List.mem_cons_self _ _)
      · rcases ih h with h | h
        · exact Or.inl h
        · exact Or.inr (List.mem_cons_of_mem _ h)

theorem mem_foldl_pyUpsert {e : PyStr × PyVal} :
    ∀ (l acc : List (PyStr × PyVal)),
      e ∈ l.foldl (fun a kv => pyUpsert kv.1 kv.2 a) acc → e ∈ acc ∨ e ∈ l := by
  intro l
  induction l with
  | nil => intro acc h; exact Or.inl h
  | cons kv rest ih =>
    intro acc h
    rw [List.foldl_cons] at h
    rcases ih _ h with h | h
    · rcases mem_pyUpsert h with h | h
      · exact Or.inr (h ▸ List.mem_cons_self _ _)
      · exact Or.inl h
    · exact Or.inr (List.mem_cons_of_mem _ h)

theorem keys_pyUpsert_of_mem (k : PyStr) (v : PyVal) :
    ∀ (acc : List (PyStr × PyVal)), k ∈ acc.map Prod.fst →
      (pyUpsert k v acc).map Prod.fst = acc.map Prod.fst := by
  intro acc
  induction acc with
  | nil => intro h; simp at h
  | cons kv rest ih =>
    rcases kv with ⟨k', v'⟩
    intro h
    by_cases hk : k' = k
    · simp [pyUpsert, hk]
    · have hkr : k ∈ rest.map Prod.fst := by
        rw [List.map_cons] at h
        rcases List.mem_cons.mp h with h' | h'
        · exact absurd h'.symm hk
        · exact h'
      simp [pyUpsert, hk, ih hkr]

theorem pyUpsert_of_not_mem (k : PyStr) (v : PyVal) :
    ∀ (acc : List (PyStr × PyVal)), k ∉ acc.map Prod.fst →
      pyUpsert k v acc = acc ++ [(k, v)] := by
  intro acc
  induction acc with
  | nil => intro _; rfl
  | cons kv rest ih =>
    rcases kv with ⟨k', v'⟩
    intro h
    have hk : ¬k' = k := by
      intro he
      exact h (by simp [he])
    have hkr : k ∉ rest.map Prod.fst := by
      intro hr
      exact h (by simp [hr])
    simp [pyUpsert, hk, ih hkr]

theorem keys_nodup_foldl :
    ∀ (l acc : List (PyStr × PyVal)), (acc.map Prod.fst).Nodup →
      ((l.foldl (fun a kv => pyUpsert kv.1 kv.2 a) acc).map Prod.fst).Nodup := by
  intro l
  induction l with
  | nil => intro acc h; exact h
  | cons kv rest ih =>
    intro acc hacc
    rw [List.foldl_cons]
    apply ih
    by_cases hk : kv.1 ∈ acc.map Prod.fst
    · rw [keys_pyUpsert_of_mem _ _ _ hk]
      exact hacc
    · rw [pyUpsert_of_not_mem _ _ _ hk]
      rw [List.map_append]
      refine List.nodup_append.mpr ⟨hacc, by simp, ?_⟩
      intro a ha hb
      simp at hb
      exact hk (hb ▸ ha)

theorem foldl_pyUpsert_of_nodup :
    ∀ (l acc : List (PyStr × PyVal)), (((acc ++ l).map Prod.fst)).Nodup →
      l.foldl (fun a kv => pyUpsert kv.1 kv.2 a) acc = acc ++ l := by
  intro l
  induction l with
  | nil => intro acc _; simp
  | cons kv rest ih =>
    intro acc hnd
    have hk : kv.1 ∉ acc.map Prod.fst := by
      intro hmem
      rw [List.map_append] at hnd
      rcases List.nodup_append.mp hnd with ⟨-, -, hdisj⟩
      exact hdisj hmem (by simp)
    rw [List.foldl_cons, pyUpsert_of_not_mem _ _ _ hk,
      ih (acc ++ [kv]) (by simpa using hnd)]
    simp

theorem keys_nodup_pyDictOfPairs (l : List (PyStr × PyVal)) :
    ((pyDictOfPairs l).map Prod.fst).Nodup := by
  unfold pyDictOfPairs
  exact keys_nodup_foldl l [] (by simp)

theorem mem_pyDictOfPairs {e : PyStr × PyVal} {l : List (PyStr × PyVal)}
    (h : e ∈ pyDictOfPairs l) : e ∈ l := by
  unfold pyDictOfPairs at h
  rcases mem_foldl_pyUpsert _ _ h with h | h
  · simp at h
  · exact h

/-- A dict built by the comprehension has duplicate-free keys, hence
rebuilding it changes nothing. -/
theorem pyDictOfPairs_self (l : List (PyStr × PyVal))
    (h : (l.map Prod.fst).Nodup) : pyDictOfPairs l = l :=
  foldl_pyUpsert_of_nodup l [] (by simpa using h)

theorem map_eq_self_of_mem {α : Type} {f : α → α} {l : List α}
    (h : ∀ e ∈ l, f e = e) : l.map f = l := by
  induction l with
  | nil => rfl
  | cons a as ih =>
    rw [List.map_cons, h a (List.mem_cons_self _ _),
      ih (fun e he => h e (List.mem_cons_of_mem _ he))]

theorem sanitize_sanitize (v : PyVal) : sanitize (sanitize v) = sanitize v := by
  induction v using PyVal.inductionOn with
  | hnone => simp [sanitize]
  | hbool b => simp [sanitize]
  | hint n => simp [sanitize]
  | hstr s =>
    simp only [sanitize]
    rw [clean_str_idem]
  | hlist xs ih =>
    rw [sanitize_list, sanitize_list, List.map_map]
    congr 1
    apply List.map_congr_left
    intro a ha
    exact ih a ha
  | htuple xs ih =>
    rw [sanitize_tuple, sanitize_tuple, List.map_map]
    congr 1
    apply List.map_congr_left
    intro a ha
    exact ih a ha
  | hdict kvs ih =>
    rw [sanitize_dict, sanitize_dict]
    congr 1
    have hm : ∀ e ∈ pyDictOfPairs (kvs.map (fun kv => (clean_str kv.1, sanitize kv.2))),
        (clean_str e.1, sanitize e.2) = e := by
      intro e he
      obtain ⟨kv, hkv, rfl⟩ := List.mem_map.mp (mem_pyDictOfPairs he)
      simp only [clean_str_idem]
      rw [ih kv hkv]
    rw [map_eq_self_of_mem hm]
    exact pyDictOfPairs_self _ (keys_nodup_pyDictOfPairs _)

/-- C9: sanitization is idempotent on every nested structure of mappings,
sequences, strings and scalars, and each application preserves structural
shape (a mapping stays a mapping, a sequence stays a sequence, a string
stays a string). -/
theorem sanitize_idempotent_and_shape :
    (∀ v : PyVal, sanitize (sanitize v) = sanitize v) ∧
    (∀ kvs, ∃ kvs', sanitize (PyVal.dict kvs) = PyVal.dict kvs') ∧
    (∀ xs, ∃ ys, sanitize (PyVal.list xs) = PyVal.list ys) ∧
    (∀ xs, ∃ ys, sanitize (PyVal.tuple xs) = PyVal.tuple ys) ∧
    (∀ s, ∃ t, sanitize (PyVal.str s) = PyVal.str t) :=
  ⟨sanitize_sanitize,
    fun kvs => ⟨_, sanitize_dict kvs⟩,
    fun xs => ⟨_, sanitize_list xs⟩,
    fun xs => ⟨_, sanitize_tuple xs⟩,
    fun s => ⟨clean_str s, by simp [sanitize]⟩⟩

end Mafia
